import Mathlib

/-!
Verification development for the `init_repo.py` repository bootstrap script.

The script's pure string logic (`update_placeholders`, Python's `str.replace`,
`str.strip`, `str.lower`) is embedded at the level of `List Char`; the
filesystem passes of `init_repo` are embedded as functions over an explicit
snapshot of the directory walk; the external `git config` invocation is an
explicit outcome value.
-/

/-- Python whitespace characters stripped by `str.strip()` (the ASCII set,
which is the relevant one for `git config` output). -/
def pyWS (c : Char) : Bool :=
  c == ' ' || c == '\t' || c == '\n' || c == '\r' || c == '\x0b' || c == '\x0c'

/-- Python `str.strip()`: drop leading and trailing whitespace. -/
def pyStrip (s : String) : String :=
  ⟨((s.data.dropWhile pyWS).reverse.dropWhile pyWS).reverse⟩

/-- Python `str.lower()` (per-character lowering; the script only lowers the
working-directory name). -/
def pyLower (s : String) : String :=
  ⟨s.data.map Char.toLower⟩

/-- Fuel-driven core of Python `str.replace`: scan left to right; on a match of
`pat`, emit `rep` and resume after the matched occurrence (non-overlapping);
otherwise copy one character.  The fuel is always instantiated with the length
of the scanned list, so the fuel-exhausted branch is unreachable. -/
def replaceGo (pat rep : List Char) : Nat → List Char → List Char
  | _, [] => []
  | 0, c :: cs => c :: cs
  | fuel + 1, c :: cs =>
    if pat.isPrefixOf (c :: cs) then
      rep ++ replaceGo pat rep fuel (cs.drop (pat.length - 1))
    else
      c :: replaceGo pat rep fuel cs

/-- Python `s.replace(pat, rep)` on character lists (for the non-empty
patterns the script uses). -/
def replaceList (pat rep s : List Char) : List Char :=
  replaceGo pat rep s.length s

/-- The project metadata dictionary built by `init_repo`.  The source builds a
`dict` that always receives exactly these four keys, in this insertion
order, so it is embedded as a four-field structure. -/
structure ProjectInfo where
  project_name : String
  package_name : String
  user_name : String
  user_email : String
deriving DecidableEq

/-- The four recognized placeholder keys, in the dict's insertion order. -/
inductive PKey where
  | project_name
  | package_name
  | user_name
  | user_email
deriving DecidableEq

/-- The name of a placeholder key as it appears in the source dict. -/
def keyName : PKey → String
  | .project_name => "project_name"
  | .package_name => "package_name"
  | .user_name => "user_name"
  | .user_email => "user_email"

/-- The resolved value a `ProjectInfo` assigns to a key. -/
def keyValue (p : ProjectInfo) : PKey → String
  | .project_name => p.project_name
  | .package_name => p.package_name
  | .user_name => p.user_name
  | .user_email => p.user_email

/-- The literal placeholder token `{key}` searched for by the source's
`string.replace(f"{{{placeholder}}}", value)`. -/
def tokenOf (k : PKey) : List Char :=
  ("\x7b" ++ keyName k ++ "\x7d").data

/-- The four sequential `str.replace` calls of `update_placeholders`, applied
in the dict's insertion order: project_name, package_name, user_name,
user_email. -/
def updateChars (p : ProjectInfo) (s : List Char) : List Char :=
  replaceList (tokenOf .user_email) p.user_email.data
    (replaceList (tokenOf .user_name) p.user_name.data
      (replaceList (tokenOf .package_name) p.package_name.data
        (replaceList (tokenOf .project_name) p.project_name.data s)))

/-- Source `update_placeholders(string, project_info)`: for each key-value
pair in insertion order, replace every occurrence of `{key}` with the value. -/
def update_placeholders (string : String) (project_info : ProjectInfo) : String :=
  ⟨updateChars project_info string.data⟩

/-- `pat` occurs as a contiguous sublist of the second argument. -/
def hasSub (pat : List Char) : List Char → Bool
  | [] => pat.isPrefixOf ([] : List Char)
  | c :: cs => pat.isPrefixOf (c :: cs) || hasSub pat cs

/-- Some placeholder token of the four keys occurs in `l`. -/
def hasAnyToken (l : List Char) : Bool :=
  hasSub (tokenOf .project_name) l || hasSub (tokenOf .package_name) l ||
    hasSub (tokenOf .user_name) l || hasSub (tokenOf .user_email) l

/-- Some resolved value of `p` contains some placeholder token. -/
def anyValueHasToken (p : ProjectInfo) : Bool :=
  hasAnyToken p.project_name.data || hasAnyToken p.package_name.data ||
    hasAnyToken p.user_name.data || hasAnyToken p.user_email.data

lemma replaceGo_fuel_congr (pat rep : List Char) (f : Nat) :
    ∀ g s, s.length ≤ f → s.length ≤ g →
      replaceGo pat rep f s = replaceGo pat rep g s := by
  induction f with
  | zero =>
    intro g s h1 _
    cases s with
    | nil => cases g <;> rfl
    | cons c cs => simp at h1
  | succ f ih =>
    intro g s h1 h2
    cases s with
    | nil => cases g <;> rfl
    | cons c cs =>
      cases g with
      | zero => simp at h2
      | succ g' =>
        simp only [replaceGo]
        cases hp : pat.isPrefixOf (c :: cs) with
        | false =>
          simp only [Bool.false_eq_true, if_false]
          have h1' : cs.length ≤ f := by
            simp only [List.length_cons] at h1; omega
          have h2' : cs.length ≤ g' := by
            simp only [List.length_cons] at h2; omega
          rw [ih g' cs h1' h2']
        | true =>
          simp only [if_true]
          have hd : (cs.drop (pat.length - 1)).length ≤ cs.length := by
            simp only [List.length_drop]; omega
          have h1' : (cs.drop (pat.length - 1)).length ≤ f := by
            simp only [List.length_cons] at h1; omega
          have h2' : (cs.drop (pat.length - 1)).length ≤ g' := by
            simp only [List.length_cons] at h2; omega
          rw [ih g' _ h1' h2']

lemma replaceList_nil (pat rep : List Char) : replaceList pat rep [] = [] := rfl

lemma replaceList_cons (pat rep : List Char) (c : Char) (cs : List Char) :
    replaceList pat rep (c :: cs) =
      if pat.isPrefixOf (c :: cs) then
        rep ++ replaceList pat rep (cs.drop (pat.length - 1))
      else
        c :: replaceList pat rep cs := by
  show replaceGo pat rep (c :: cs).length (c :: cs) = _
  simp only [List.length_cons, replaceGo]
  cases hp : pat.isPrefixOf (c :: cs) with
  | false =>
    simp only [Bool.false_eq_true, if_false]
    rw [replaceGo_fuel_congr pat rep cs.length cs.length cs (le_refl _) (le_refl _)]
    rfl
  | true =>
    simp only [if_true]
    have hd : (cs.drop (pat.length - 1)).length ≤ cs.length := by
      simp only [List.length_drop]; omega
    rw [replaceGo_fuel_congr pat rep cs.length (cs.drop (pat.length - 1)).length
      (cs.drop (pat.length - 1)) hd (le_refl _)]
    rfl

lemma replaceList_of_not_hasSub (pat rep s : List Char)
    (h : hasSub pat s = false) : replaceList pat rep s = s := by
  induction s with
  | nil => rfl
  | cons c cs ih =>
    simp only [hasSub, Bool.or_eq_false_iff] at h
    rw [replaceList_cons, h.1]
    simp only [Bool.false_eq_true, if_false]
    rw [ih h.2]

/-- If a string contains none of the four placeholder tokens, all four
`str.replace` passes leave it unchanged. -/
lemma update_placeholders_id_helper (s : String) (p : ProjectInfo)
    (h : hasAnyToken s.data = false) : update_placeholders s p = s := by
  simp only [hasAnyToken, Bool.or_eq_false_iff] at h
  show (⟨updateChars p s.data⟩ : String) = s
  unfold updateChars
  rw [replaceList_of_not_hasSub _ _ _ h.1.1.1, replaceList_of_not_hasSub _ _ _ h.1.1.2,
    replaceList_of_not_hasSub _ _ _ h.1.2, replaceList_of_not_hasSub _ _ _ h.2]

/-- C10: if none of the four tokens `{project_name}`, `{package_name}`,
`{user_name}`, `{user_email}` occurs as a substring of `s`, then
`update_placeholders` returns `s` unchanged — substitution is the identity on
placeholder-free strings, so malformed partial tokens are never altered. -/
theorem update_placeholders_token_free_id (s : String) (p : ProjectInfo)
    (h : hasAnyToken s.data = false) : update_placeholders s p = s :=
  update_placeholders_id_helper s p h

/-- Witness for C10, at the malformed partial token `{proj` from the spec. -/
theorem update_placeholders_token_free_id_witness :
    hasAnyToken ("\x7bproj".data) = false ∧
      update_placeholders "\x7bproj" ⟨"a", "b", "c", "d"⟩ = "\x7bproj" :=
  ⟨by decide, update_placeholders_token_free_id "\x7bproj" ⟨"a", "b", "c", "d"⟩ (by decide)⟩

/-- C4 (counterexample): the claimed equivalence "double substitution equals
single substitution iff no resolved value contains a placeholder token" is
false at the concrete input `s = "hello"` with a `ProjectInfo` whose
`user_email` value is the token `{user_email}`: substitution is idempotent at
this `s` (which contains no token), yet a value does contain a token. -/
theorem update_placeholders_idem_iff_false :
    ¬((update_placeholders
          (update_placeholders "hello" ⟨"a", "b", "c", "\x7buser_email\x7d"⟩)
          ⟨"a", "b", "c", "\x7buser_email\x7d"⟩ =
        update_placeholders "hello" ⟨"a", "b", "c", "\x7buser_email\x7d"⟩) ↔
      anyValueHasToken ⟨"a", "b", "c", "\x7buser_email\x7d"⟩ = false) := by
  decide

/-- C4 (amended): applying `update_placeholders` twice with the same
`ProjectInfo` equals applying it once for every input whose once-substituted
result contains no placeholder token. -/
theorem update_placeholders_idem_of_token_free (s : String) (p : ProjectInfo)
    (h : hasAnyToken (update_placeholders s p).data = false) :
    update_placeholders (update_placeholders s p) p = update_placeholders s p :=
  update_placeholders_id_helper (update_placeholders s p) p h

/-- Witness for the amended C4 at a concrete string and `ProjectInfo`. -/
theorem update_placeholders_idem_of_token_free_witness :
    hasAnyToken (update_placeholders "x \x7bproject_name\x7d y"
        ⟨"demo", "dd", "Jane", "j"⟩).data = false ∧
      update_placeholders
          (update_placeholders "x \x7bproject_name\x7d y" ⟨"demo", "dd", "Jane", "j"⟩)
          ⟨"demo", "dd", "Jane", "j"⟩ =
        update_placeholders "x \x7bproject_name\x7d y" ⟨"demo", "dd", "Jane", "j"⟩ :=
  ⟨by decide,
    update_placeholders_idem_of_token_free "x \x7bproject_name\x7d y"
      ⟨"demo", "dd", "Jane", "j"⟩ (by decide)⟩

/-- Neither brace character occurs in `l`. -/
def braceFree (l : List Char) : Bool :=
  l.all (fun c => !(c == '\x7b') && !(c == '\x7d'))

/-- A piece of a file's text: either literal text or a placeholder token. -/
inductive Chunk where
  | lit (l : List Char)
  | tok (k : PKey)

/-- The text a chunk list denotes, with tokens written as `{key}`. -/
def chunksText : List Chunk → List Char
  | [] => []
  | .lit l :: rest => l ++ chunksText rest
  | .tok k :: rest => tokenOf k ++ chunksText rest

/-- The intended substitution result: literal pieces kept verbatim, each token
replaced with the corresponding resolved value. -/
def chunksResult (p : ProjectInfo) : List Chunk → List Char
  | [] => []
  | .lit l :: rest => l ++ chunksResult p rest
  | .tok k :: rest => (keyValue p k).data ++ chunksResult p rest

/-- Replace every token chunk for one key with a literal value chunk. -/
def substKey (k : PKey) (v : List Char) : List Chunk → List Chunk :=
  List.map (fun ch => match ch with
    | .tok k2 => if k2 = k then .lit v else .tok k2
    | .lit l => .lit l)

/-- Every literal chunk is brace-free. -/
def litsBraceFree : List Chunk → Bool
  | [] => true
  | .lit l :: rest => braceFree l && litsBraceFree rest
  | .tok _ :: rest => litsBraceFree rest

/-- Every resolved value of `p` is brace-free. -/
def valuesBraceFree (p : ProjectInfo) : Bool :=
  braceFree p.project_name.data && braceFree p.package_name.data &&
    braceFree p.user_name.data && braceFree p.user_email.data

/-- The zipped character lists disagree somewhere. -/
def zipNe (a b : List Char) : Bool :=
  (a.zip b).any (fun cd => !(cd.1 == cd.2))

lemma isPrefixOf_append_self (l t : List Char) : l.isPrefixOf (l ++ t) = true := by
  induction l with
  | nil => cases t <;> rfl
  | cons c cs ih => simp [List.isPrefixOf, ih]

lemma not_isPrefixOf_of_zipNe (pat : List Char) :
    ∀ x t, zipNe pat x = true → pat.isPrefixOf (x ++ t) = false := by
  induction pat with
  | nil => intro x t h; cases x <;> simp [zipNe] at h
  | cons a as ih =>
    intro x t h
    cases x with
    | nil => simp [zipNe] at h
    | cons b bs =>
      simp only [zipNe, List.zip_cons_cons, List.any_cons, Bool.or_eq_true] at h
      rcases h with h | h
      · simp only [List.cons_append, List.isPrefixOf]
        simp only [Bool.not_eq_true'] at h
        simp [h]
      · simp only [List.cons_append, List.isPrefixOf, List.append_eq]
        rw [ih bs t h]
        simp

lemma token_pairs_mismatch (k k2 : PKey) (h : k ≠ k2) :
    zipNe (tokenOf k) (tokenOf k2) = true := by
  cases k <;> cases k2 <;> revert h <;> decide

lemma tokenOf_eq (k : PKey) :
    tokenOf k = '\x7b' :: ((keyName k).data ++ ['\x7d']) := by
  cases k <;> rfl

lemma keyTail_no_lbrace (k : PKey) :
    ((keyName k).data ++ ['\x7d']).all (fun c => !(c == '\x7b')) = true := by
  cases k <;> decide

lemma braceFree_no_lbrace (l : List Char) (h : braceFree l = true) :
    l.all (fun c => !(c == '\x7b')) = true := by
  simp only [braceFree, List.all_eq_true, Bool.and_eq_true] at *
  intro c hc
  exact (h c hc).1

lemma replaceList_append_left (pt v t : List Char) :
    ∀ l, l.all (fun c => !(c == '\x7b')) = true →
      replaceList ('\x7b' :: pt) v (l ++ t) = l ++ replaceList ('\x7b' :: pt) v t := by
  intro l hl
  induction l with
  | nil => rfl
  | cons c cs ih =>
    simp only [List.all_cons, Bool.and_eq_true, Bool.not_eq_true'] at hl
    have hne : ('\x7b' == c) = false := by
      cases hcc : ('\x7b' == c) with
      | false => rfl
      | true =>
        exact absurd (by rw [eq_of_beq hcc] at hl; exact hl.1) (by simp)
    rw [List.cons_append, replaceList_cons]
    simp only [List.isPrefixOf, hne, Bool.false_and, Bool.false_eq_true, if_false]
    have hcs : cs.all (fun c => !(c == '\x7b')) = true := by
      simp only [List.all_eq_true, Bool.not_eq_true']
      exact fun x hx => by
        have := hl.2
        simp only [List.all_eq_true, Bool.not_eq_true'] at this
        exact this x hx
    rw [ih hcs]
    rfl

lemma replaceList_token_head (pt v t : List Char) :
    replaceList ('\x7b' :: pt) v (('\x7b' :: pt) ++ t) =
      v ++ replaceList ('\x7b' :: pt) v t := by
  rw [List.cons_append, replaceList_cons]
  have hpre : ('\x7b' :: pt).isPrefixOf ('\x7b' :: (pt ++ t)) = true := by
    have := isPrefixOf_append_self ('\x7b' :: pt) t
    rwa [List.cons_append] at this
  rw [hpre]
  simp only [if_true, List.length_cons, Nat.add_sub_cancel, List.drop_left]

lemma replaceList_chunks (k : PKey) (v : List Char) :
    ∀ cs, litsBraceFree cs = true →
      replaceList (tokenOf k) v (chunksText cs) = chunksText (substKey k v cs) := by
  intro cs
  induction cs with
  | nil => intro _; rfl
  | cons ch rest ih =>
    intro hcs
    cases ch with
    | lit l =>
      have h1 : braceFree l = true ∧ litsBraceFree rest = true := by
        simpa [litsBraceFree] using hcs
      have step : replaceList (tokenOf k) v (l ++ chunksText rest) =
          l ++ replaceList (tokenOf k) v (chunksText rest) := by
        rw [tokenOf_eq]
        exact replaceList_append_left _ v _ l (braceFree_no_lbrace l h1.1)
      simp only [chunksText, substKey, List.map_cons]
      rw [step, ih h1.2]
      rfl
    | tok k2 =>
      have hrest : litsBraceFree rest = true := by simpa [litsBraceFree] using hcs
      by_cases hk : k2 = k
      · subst hk
        simp only [chunksText, substKey, List.map_cons, if_pos rfl]
        rw [tokenOf_eq, replaceList_token_head, ← tokenOf_eq]
        rw [ih hrest]
        rfl
      · have hne : k ≠ k2 := fun h => hk h.symm
        have hz := token_pairs_mismatch k k2 hne
        have hm := not_isPrefixOf_of_zipNe (tokenOf k) (tokenOf k2) (chunksText rest) hz
        simp only [chunksText, substKey, List.map_cons, if_neg hk]
        rw [tokenOf_eq k2, List.cons_append, replaceList_cons]
        have hm' : (tokenOf k).isPrefixOf
            ('\x7b' :: (((keyName k2).data ++ ['\x7d']) ++ chunksText rest)) = false := by
          rw [← List.cons_append, ← tokenOf_eq k2]
          exact hm
        rw [hm']
        simp only [Bool.false_eq_true, if_false]
        rw [tokenOf_eq k]
        rw [replaceList_append_left _ v _ _ (keyTail_no_lbrace k2)]
        rw [← tokenOf_eq k, ih hrest]
        rfl

/-- The four `substKey` applications, in the dict's insertion order. -/
def substAll (p : ProjectInfo) (cs : List Chunk) : List Chunk :=
  substKey .user_email p.user_email.data
    (substKey .user_name p.user_name.data
      (substKey .package_name p.package_name.data
        (substKey .project_name p.project_name.data cs)))

lemma substKey_lits (k : PKey) (v : List Char) (hv : braceFree v = true) :
    ∀ cs, litsBraceFree cs = true → litsBraceFree (substKey k v cs) = true := by
  intro cs
  induction cs with
  | nil => intro _; rfl
  | cons ch rest ih =>
    intro h
    cases ch with
    | lit l =>
      have h1 : braceFree l = true ∧ litsBraceFree rest = true := by
        simpa [litsBraceFree] using h
      simp only [substKey, List.map_cons, litsBraceFree, Bool.and_eq_true]
      exact ⟨h1.1, ih h1.2⟩
    | tok k2 =>
      have hrest : litsBraceFree rest = true := by simpa [litsBraceFree] using h
      by_cases hk : k2 = k
      · simp only [substKey, List.map_cons, if_pos hk, litsBraceFree, Bool.and_eq_true]
        exact ⟨hv, ih hrest⟩
      · simp only [substKey, List.map_cons, if_neg hk, litsBraceFree]
        exact ih hrest

lemma chunksText_substAll (p : ProjectInfo) :
    ∀ cs, chunksText (substAll p cs) = chunksResult p cs := by
  intro cs
  induction cs with
  | nil => rfl
  | cons ch rest ih =>
    cases ch with
    | lit l =>
      simp only [substAll, substKey, List.map_cons] at ih ⊢
      simp only [chunksText, chunksResult]
      rw [ih]
    | tok k =>
      simp only [substAll, substKey, List.map_cons] at ih ⊢
      cases k <;> simp only [chunksText, chunksResult, keyValue, if_true, if_false,
        reduceCtorEq, reduceIte] <;> rw [ih]

/-- C5: for a file text decomposed into brace-free literal pieces and
placeholder tokens, with brace-free resolved values, `update_placeholders`
replaces every literal token occurrence exactly with the corresponding
resolved value and keeps all surrounding literal text unchanged. -/
theorem update_placeholders_exact (p : ProjectInfo) (cs : List Chunk)
    (hl : litsBraceFree cs = true) (hv : valuesBraceFree p = true) :
    update_placeholders ⟨chunksText cs⟩ p = ⟨chunksResult p cs⟩ := by
  have hv' : braceFree p.project_name.data = true ∧ braceFree p.package_name.data = true ∧
      braceFree p.user_name.data = true ∧ braceFree p.user_email.data = true := by
    simpa [valuesBraceFree, and_assoc] using hv
  have h1 := replaceList_chunks .project_name p.project_name.data cs hl
  have l1 : litsBraceFree (substKey .project_name p.project_name.data cs) = true :=
    substKey_lits _ _ hv'.1 cs hl
  have h2 := replaceList_chunks .package_name p.package_name.data _ l1
  have l2 : litsBraceFree (substKey .package_name p.package_name.data
      (substKey .project_name p.project_name.data cs)) = true :=
    substKey_lits _ _ hv'.2.1 _ l1
  have h3 := replaceList_chunks .user_name p.user_name.data _ l2
  have l3 : litsBraceFree (substKey .user_name p.user_name.data
      (substKey .package_name p.package_name.data
        (substKey .project_name p.project_name.data cs))) = true :=
    substKey_lits _ _ hv'.2.2.1 _ l2
  have h4 := replaceList_chunks .user_email p.user_email.data _ l3
  show (⟨updateChars p (chunksText cs)⟩ : String) = _
  unfold updateChars
  rw [h1, h2, h3, h4]
  rw [show substKey .user_email p.user_email.data
      (substKey .user_name p.user_name.data
        (substKey .package_name p.package_name.data
          (substKey .project_name p.project_name.data cs))) = substAll p cs from rfl]
  rw [chunksText_substAll]

/-- Witness for C5: the spec's end-to-end scenario 2. -/
theorem update_placeholders_exact_witness :
    litsBraceFree [Chunk.lit "Welcome to ".data, Chunk.tok PKey.project_name,
        Chunk.lit ", by ".data, Chunk.tok PKey.user_name] = true ∧
      valuesBraceFree ⟨"demo", "demo", "Jane Doe", "jane@doe.org"⟩ = true ∧
      update_placeholders "Welcome to \x7bproject_name\x7d, by \x7buser_name\x7d"
          ⟨"demo", "demo", "Jane Doe", "jane@doe.org"⟩ =
        "Welcome to demo, by Jane Doe" := by
  refine ⟨by decide, by decide, ?_⟩
  have h := update_placeholders_exact ⟨"demo", "demo", "Jane Doe", "jane@doe.org"⟩
    [Chunk.lit "Welcome to ".data, Chunk.tok PKey.project_name,
      Chunk.lit ", by ".data, Chunk.tok PKey.user_name] (by decide) (by decide)
  have e1 : (⟨chunksText [Chunk.lit "Welcome to ".data, Chunk.tok PKey.project_name,
      Chunk.lit ", by ".data, Chunk.tok PKey.user_name]⟩ : String) =
      "Welcome to \x7bproject_name\x7d, by \x7buser_name\x7d" := by decide
  have e2 : (⟨chunksResult ⟨"demo", "demo", "Jane Doe", "jane@doe.org"⟩
      [Chunk.lit "Welcome to ".data, Chunk.tok PKey.project_name,
        Chunk.lit ", by ".data, Chunk.tok PKey.user_name]⟩ : String) =
      "Welcome to demo, by Jane Doe" := by decide
  rw [← e1, h, e2]

deriving instance DecidableEq for Except

/-- Python exception kinds the script can raise. -/
inductive PyErr where
  | calledProcessError
  | fileNotFoundError
  | unicodeDecodeError
  | osError
deriving DecidableEq

/-- Outcome of one `git config --global <key>` invocation: exit status zero
with some stdout, a non-zero exit status, or the tool not being invocable. -/
inductive GitOutcome where
  | exitZero (stdout : String)
  | exitNonZero
  | invokeFailure
deriving DecidableEq

/-- Source `param_from_git(key)` as a function of the git invocation's
outcome.  The source calls `subprocess.run([...], check=True, ...)`, and
`check=True` raises `CalledProcessError` on any non-zero exit status before
the `if process.returncode == 0` test is reached, so that function's
`return None` branch is unreachable; exit status zero returns the stripped
stdout.  A failure to invoke the tool at all raises `FileNotFoundError`. -/
def param_from_git (result : GitOutcome) : Except PyErr (Option String) :=
  match result with
  | .exitZero out => .ok (some (pyStrip out))
  | .exitNonZero => .error .calledProcessError
  | .invokeFailure => .error .fileNotFoundError

/-- Source `if_none_else(a, b)`: `b` if `a` is `None`, else `a`. -/
def if_none_else (a : Option String) (b : String) : String :=
  match a with
  | none => b
  | some v => v

/-- The parameter-resolution prefix of `init_repo` (source lines 100-119).
Both `param_from_git` calls are evaluated eagerly (Python evaluates the
argument of `if_none_else` before the call), even when the corresponding
override is given, so either lookup raising aborts the resolution. -/
def buildProjectInfo (project_name package_name user_name user_email : Option String)
    (cwdName : String) (gitName gitEmail : GitOutcome) : Except PyErr ProjectInfo :=
  let pn := if_none_else project_name (pyLower cwdName)
  let pkg := if_none_else package_name ⟨replaceList ['-'] ['_'] pn.data⟩
  match param_from_git gitName with
  | .error e => .error e
  | .ok gn =>
    let un := if_none_else user_name (if_none_else gn "First Last")
    match param_from_git gitEmail with
    | .error e => .error e
    | .ok ge =>
      let ue := if_none_else user_email (if_none_else ge "name @ email.com")
      .ok ⟨pn, pkg, un, ue⟩

/-- One entry of the `path.rglob("*")` traversal snapshot: its relative path
segments, whether it is a regular file, its text content (meaningful for
files), and whether reading it as text succeeds (decode flag). -/
structure FSEntry where
  segments : List String
  isFile : Bool
  content : String
  decodeOk : Bool
deriving DecidableEq

/-- `str(child)` for a relative `Path`: segments joined with `/`. -/
def joinSegs : List String → List Char
  | [] => []
  | [s] => s.data
  | s :: rest => s.data ++ '/' :: joinSegs rest

/-- The path string of an entry. -/
def pathStr (e : FSEntry) : String := ⟨joinSegs e.segments⟩

/-- Python `str(child).startswith(".")`. -/
def startsWithDot (s : String) : Bool :=
  match s.data with
  | [] => false
  | c :: _ => c == '.'

/-- The final path component (`Path.name`). -/
def entryName (e : FSEntry) : String := e.segments.getLastD ""

/-- `pathlib.PurePath.suffix` of a component name: `name[i:]` where `i` is the
last index of `.` in the name, provided `0 < i < len(name) - 1`, else `""`. -/
def pySuffix (name : String) : String :=
  let cs := name.data
  match ((List.range cs.length).filter (fun i => cs.getD i ' ' == '.')).getLast? with
  | none => ""
  | some i => if 0 < i ∧ i < cs.length - 1 then ⟨cs.drop i⟩ else ""

/-- The selection test of the content pass (source line 124):
`not str(child).startswith(".") and child.is_file() and child.suffix != ".py"`. -/
def contentCond (e : FSEntry) : Bool :=
  !startsWithDot (pathStr e) && e.isFile && pySuffix (entryName e) != ".py"

/-- Source `update_file(filepath, project_info)`: read the file as text
(raising `UnicodeDecodeError` if it does not decode), substitute
placeholders, write back in place. -/
def update_file (project_info : ProjectInfo) (e : FSEntry) : Except PyErr FSEntry :=
  if e.decodeOk then
    .ok { e with content := update_placeholders e.content project_info }
  else
    .error .unicodeDecodeError

/-- The content pass of `init_repo` (source lines 123-125): for each entry of
the snapshot, in order, update selected files in place; an exception stops the
loop, leaving earlier updates applied and later entries untouched.  Returns
the resulting entry list and the raised exception if any. -/
def contentPass (p : ProjectInfo) : List FSEntry → (List FSEntry × Option PyErr)
  | [] => ([], none)
  | e :: rest =>
    if contentCond e then
      match update_file p e with
      | .error er => (e :: rest, some er)
      | .ok e' =>
        match contentPass p rest with
        | (r, err) => (e' :: r, err)
    else
      match contentPass p rest with
      | (r, err) => (e :: r, err)

/-- A Python value involved in the rename pass's comparison. -/
inductive PyVal where
  | pyStr (s : String)
  | pyPath (s : String)

/-- CPython `==` between the rename pass's `target_path` (a `str`) and
`child` (a `Path`): `str.__eq__` on a non-`str` and `PurePath.__eq__` on a
non-`PurePath` both return `NotImplemented`, so `==` falls back to object
identity, which is false for these two distinct objects. -/
def pyEq : PyVal → PyVal → Bool
  | .pyStr a, .pyStr b => a == b
  | .pyPath a, .pyPath b => a == b
  | _, _ => false

/-- CPython `!=`, the negation of `==`. -/
def pyNe (a b : PyVal) : Bool := !pyEq a b

/-- The rename pass of `init_repo` (source lines 129-134) over a traversal
snapshot: for each non-hidden entry, compute the substituted path and, when
the source's guard `target_path != child` holds, call
`child.rename(target_path)`.  `renameFails` says whether a given rename call
raises `OSError`; a raised exception stops the loop.  Returns the list of
rename calls performed (source, target) and the raised exception if any.
Effects of performed renames on the paths of entries still to be visited are
outside this model (the source iterates a live generator while renaming, a
hazard the claims below do not depend on). -/
def renamePass (p : ProjectInfo) (renameFails : String → String → Bool) :
    List FSEntry → (List (String × String) × Option PyErr)
  | [] => ([], none)
  | e :: rest =>
    if startsWithDot (pathStr e) then
      renamePass p renameFails rest
    else
      let target_path := update_placeholders (pathStr e) p
      if pyNe (.pyStr target_path) (.pyPath (pathStr e)) then
        if renameFails (pathStr e) target_path then
          ([], some .osError)
        else
          match renamePass p renameFails rest with
          | (calls, err) => ((pathStr e, target_path) :: calls, err)
      else
        renamePass p renameFails rest

/-- Final state of one `init_repo` run: entries after the content pass, the
rename calls performed, whether the script deleted its own source file, and
the exception that aborted the run if any. -/
structure RunResult where
  fs : List FSEntry
  renames : List (String × String)
  selfRemoved : Bool
  error : Option PyErr

/-- Source `init_repo(project_name, package_name, user_name, user_email)`:
resolve parameters, run the content pass, run the rename pass, then delete
the script's own file (`Path(__file__).unlink()`); any exception propagates
and skips the remaining steps. -/
def init_repo (project_name package_name user_name user_email : Option String)
    (cwdName : String) (gitName gitEmail : GitOutcome)
    (renameFails : String → String → Bool) (fs : List FSEntry) : RunResult :=
  match buildProjectInfo project_name package_name user_name user_email
      cwdName gitName gitEmail with
  | .error e => ⟨fs, [], false, some e⟩
  | .ok p =>
    match contentPass p fs with
    | (fs1, some e) => ⟨fs1, [], false, some e⟩
    | (fs1, none) =>
      match renamePass p renameFails fs1 with
      | (calls, some e) => ⟨fs1, calls, false, some e⟩
      | (calls, none) => ⟨fs1, calls, true, none⟩

/-- C1 (code evaluated at the failing input): a non-zero exit status of the
identity lookup makes `param_from_git` raise `CalledProcessError` (because of
`check=True`) instead of returning no value, and with no `user_email`
override the resolution therefore aborts instead of falling through to the
literal `"name @ email.com"`. -/
theorem param_from_git_raises_on_nonzero :
    param_from_git GitOutcome.exitNonZero = .error PyErr.calledProcessError ∧
      buildProjectInfo none none none none "proj" (.exitZero "Jane")
          GitOutcome.exitNonZero =
        .error PyErr.calledProcessError := by
  exact ⟨rfl, rfl⟩

/-- C7: the self-removal step runs exactly when no exception was raised by
parameter resolution, the content pass, or the rename pass; any raised
exception is recorded in the result and the script file is not deleted. -/
theorem init_repo_self_removal (project_name package_name user_name user_email : Option String)
    (cwdName : String) (gitName gitEmail : GitOutcome)
    (renameFails : String → String → Bool) (fs : List FSEntry) :
    (init_repo project_name package_name user_name user_email cwdName
        gitName gitEmail renameFails fs).selfRemoved =
      (init_repo project_name package_name user_name user_email cwdName
        gitName gitEmail renameFails fs).error.isNone := by
  unfold init_repo
  cases hb : buildProjectInfo project_name package_name user_name user_email
      cwdName gitName gitEmail with
  | error e => rfl
  | ok p =>
    cases hc : contentPass p fs with
    | mk fs1 err =>
      cases err with
      | some e => simp only [hc]; rfl
      | none =>
        cases hr : renamePass p renameFails fs1 with
        | mk calls err2 =>
          cases err2 with
          | some e => simp only [hc, hr]; rfl
          | none => simp only [hc, hr]; rfl

/-- C3 (code evaluated at the failing input): on a tree with the single
non-hidden file `plain.txt`, whose substituted path equals its original path,
the rename pass still performs a rename call (to the identical path), because
the source guard `target_path != child` compares a `str` with a `Path` and is
always true. -/
theorem rename_called_on_identical_path :
    renamePass ⟨"demo", "demo", "Jane", "jane@doe.org"⟩ (fun _ _ => false)
        [⟨["plain.txt"], true, "hello", true⟩] =
      ([("plain.txt", "plain.txt")], none) := by
  decide

/-- C2 (counterexample): a hidden entry nested inside a non-hidden directory
(path `a/.b`, whose second segment starts with `.`) is content-modified by
the content pass, and a nested hidden path containing a placeholder is
renamed by the rename pass: the hidden-entry exclusion only tests whether the
whole path string starts with `.`. -/
theorem hidden_nested_entry_modified :
    contentPass ⟨"demo", "demo", "Jane", "jane@doe.org"⟩
        [⟨["a", ".b"], true, "\x7bproject_name\x7d", true⟩] =
      ([⟨["a", ".b"], true, "demo", true⟩], none) ∧
      (renamePass ⟨"demo", "demo", "Jane", "jane@doe.org"⟩ (fun _ _ => false)
          [⟨["a", ".\x7bproject_name\x7d"], false, "", true⟩]).1 =
        [("a/.\x7bproject_name\x7d", "a/.demo")] := by
  constructor
  · decide
  · decide

/-- C9 (counterexample): with the explicit argument `project_name=""` the
resolution succeeds and produces an empty `project_name` (and hence an empty
derived `package_name`), violating the claimed non-emptiness invariant. -/
theorem empty_argument_empty_project_name :
    buildProjectInfo (some "") none none none "wd" (.exitZero "n") (.exitZero "e") =
      .ok ⟨"", "", "n", "e"⟩ := by
  decide

lemma pyNe_str_path (a b : String) : pyNe (.pyStr a) (.pyPath b) = true := rfl

lemma contentPass_preserves_at (p : ProjectInfo) :
    ∀ (fs : List FSEntry) (i : Nat) (e : FSEntry), fs[i]? = some e →
      contentCond e = false → (contentPass p fs).1[i]? = some e := by
  intro fs
  induction fs with
  | nil => intro i e h _; simp at h
  | cons f rest ih =>
    intro i e h hcond
    cases i with
    | zero =>
      simp only [List.getElem?_cons_zero, Option.some.injEq] at h
      subst h
      simp only [contentPass, hcond, Bool.false_eq_true, if_false]
      cases hcp : contentPass p rest with
      | mk r err => simp only [List.getElem?_cons_zero]
    | succ i' =>
      simp only [List.getElem?_cons_succ] at h
      simp only [contentPass]
      cases hcf : contentCond f with
      | false =>
        simp only [Bool.false_eq_true, if_false]
        cases hcp : contentPass p rest with
        | mk r err =>
          have hr := ih i' e h hcond
          rw [hcp] at hr
          simpa using hr
      | true =>
        simp only [if_true]
        cases huf : update_file p f with
        | error er => simpa using h
        | ok f' =>
          cases hcp : contentPass p rest with
          | mk r err =>
            have hr := ih i' e h hcond
            rw [hcp] at hr
            simpa using hr

lemma renamePass_sources_not_hidden (p : ProjectInfo) (rf : String → String → Bool) :
    ∀ (fs : List FSEntry) (c : String × String), c ∈ (renamePass p rf fs).1 →
      startsWithDot c.1 = false := by
  intro fs
  induction fs with
  | nil => intro c h; simp [renamePass] at h
  | cons f rest ih =>
    intro c h
    simp only [renamePass] at h
    cases hsd : startsWithDot (pathStr f) with
    | true =>
      rw [hsd] at h
      simp only [if_true] at h
      exact ih c h
    | false =>
      rw [hsd] at h
      simp only [Bool.false_eq_true, if_false, pyNe_str_path, if_true] at h
      cases hrf : rf (pathStr f) (update_placeholders (pathStr f) p) with
      | true =>
        rw [hrf] at h
        simp at h
      | false =>
        rw [hrf] at h
        simp only [Bool.false_eq_true, if_false] at h
        cases hrp : renamePass p rf rest with
        | mk calls err =>
          rw [hrp] at h
          simp only [List.mem_cons] at h
          rcases h with h | h
          · subst h; simpa using hsd
          · exact ih c (by rw [hrp]; exact h)

lemma renamePass_emits_nonhidden (p : ProjectInfo) :
    ∀ (fs : List FSEntry) (i : Nat) (e : FSEntry), fs[i]? = some e →
      startsWithDot (pathStr e) = false →
      (pathStr e, update_placeholders (pathStr e) p) ∈
        (renamePass p (fun _ _ => false) fs).1 := by
  intro fs
  induction fs with
  | nil => intro i e h _; simp at h
  | cons f rest ih =>
    intro i e h hnh
    simp only [renamePass]
    cases i with
    | zero =>
      simp only [List.getElem?_cons_zero, Option.some.injEq] at h
      subst h
      simp only [hnh, Bool.false_eq_true, if_false, pyNe_str_path, if_true]
      cases hrp : renamePass p (fun _ _ => false) rest with
      | mk calls err => simp
    | succ i' =>
      simp only [List.getElem?_cons_succ] at h
      cases hsd : startsWithDot (pathStr f) with
      | true =>
        simp only [hsd, if_true]
        exact ih i' e h hnh
      | false =>
        simp only [hsd, Bool.false_eq_true, if_false, pyNe_str_path, if_true]
        cases hrp : renamePass p (fun _ _ => false) rest with
        | mk calls err =>
          have hm := ih i' e h hnh
          rw [hrp] at hm
          simp only [List.mem_cons]
          exact Or.inr hm

/-- C2 (amended): an entry whose path string starts with `.` (i.e. whose
first segment is hidden) is neither content-modified by the content pass nor
the source of any rename call of the rename pass.  Hidden entries nested
below a non-hidden directory are not covered: the source only tests
`str(child).startswith(".")`. -/
theorem hidden_first_segment_never_touched (p : ProjectInfo)
    (rf : String → String → Bool) (fs : List FSEntry) (i : Nat) (e : FSEntry)
    (hget : fs[i]? = some e) (hh : startsWithDot (pathStr e) = true) :
    (contentPass p fs).1[i]? = some e ∧
      ∀ t, (pathStr e, t) ∉ (renamePass p rf fs).1 := by
  constructor
  · exact contentPass_preserves_at p fs i e hget
      (by simp [contentCond, hh])
  · intro t hmem
    have hsrc := renamePass_sources_not_hidden p rf fs (pathStr e, t) hmem
    rw [hh] at hsrc
    exact absurd hsrc (by simp)

/-- Witness for the amended C2: the hidden entry `.git/config` with a
placeholder in its content is preserved and never renamed. -/
theorem hidden_first_segment_never_touched_witness :
    (contentPass ⟨"demo", "demo", "Jane", "jane@doe.org"⟩
        [⟨[".git", "config"], true, "\x7bproject_name\x7d", true⟩]).1[0]? =
      some ⟨[".git", "config"], true, "\x7bproject_name\x7d", true⟩ ∧
      (pathStr ⟨[".git", "config"], true, "\x7bproject_name\x7d", true⟩, "x") ∉
        (renamePass ⟨"demo", "demo", "Jane", "jane@doe.org"⟩ (fun _ _ => false)
          [⟨[".git", "config"], true, "\x7bproject_name\x7d", true⟩]).1 := by
  have h := hidden_first_segment_never_touched ⟨"demo", "demo", "Jane", "jane@doe.org"⟩
    (fun _ _ => false) [⟨[".git", "config"], true, "\x7bproject_name\x7d", true⟩] 0
    ⟨[".git", "config"], true, "\x7bproject_name\x7d", true⟩ (by decide) (by decide)
  exact ⟨h.1, h.2 "x"⟩

/-- C8: an entry whose component suffix is `.py` is left entirely unchanged
by the content pass (at its position in the snapshot), and, when not hidden,
the rename pass still performs the rename call with its substituted path. -/
theorem py_files_content_excluded_rename_included (p : ProjectInfo)
    (fs : List FSEntry) (i : Nat) (e : FSEntry) (hget : fs[i]? = some e)
    (hpy : pySuffix (entryName e) = ".py") :
    (contentPass p fs).1[i]? = some e ∧
      (startsWithDot (pathStr e) = false →
        (pathStr e, update_placeholders (pathStr e) p) ∈
          (renamePass p (fun _ _ => false) (contentPass p fs).1).1) := by
  have hcc : contentCond e = false := by
    simp [contentCond, hpy]
  have h1 := contentPass_preserves_at p fs i e hget hcc
  exact ⟨h1, fun hnh => renamePass_emits_nonhidden p (contentPass p fs).1 i e h1 hnh⟩

/-- Witness for C8: a `.py` file whose name contains a placeholder keeps its
content and is renamed to the substituted name. -/
theorem py_files_content_excluded_rename_included_witness :
    (contentPass ⟨"demo", "demo", "Jane", "jane@doe.org"⟩
        [⟨["\x7bpackage_name\x7d.py"], true, "code \x7bproject_name\x7d", true⟩]).1[0]? =
      some ⟨["\x7bpackage_name\x7d.py"], true, "code \x7bproject_name\x7d", true⟩ ∧
      (pathStr ⟨["\x7bpackage_name\x7d.py"], true, "code \x7bproject_name\x7d", true⟩,
          update_placeholders
            (pathStr ⟨["\x7bpackage_name\x7d.py"], true, "code \x7bproject_name\x7d", true⟩)
            ⟨"demo", "demo", "Jane", "jane@doe.org"⟩) ∈
        (renamePass ⟨"demo", "demo", "Jane", "jane@doe.org"⟩ (fun _ _ => false)
          (contentPass ⟨"demo", "demo", "Jane", "jane@doe.org"⟩
            [⟨["\x7bpackage_name\x7d.py"], true, "code \x7bproject_name\x7d", true⟩]).1).1 := by
  have h := py_files_content_excluded_rename_included
    ⟨"demo", "demo", "Jane", "jane@doe.org"⟩
    [⟨["\x7bpackage_name\x7d.py"], true, "code \x7bproject_name\x7d", true⟩] 0
    ⟨["\x7bpackage_name\x7d.py"], true, "code \x7bproject_name\x7d", true⟩
    (by decide) (by decide)
  exact ⟨h.1, h.2 (by decide)⟩

lemma nil_isPrefixOf (l : List Char) : ([] : List Char).isPrefixOf l = true := by
  cases l <;> rfl

lemma replaceList_single (a b : Char) :
    ∀ s, replaceList [a] [b] s = s.map (fun c => if c = a then b else c) := by
  intro s
  induction s with
  | nil => rfl
  | cons c cs ih =>
    rw [replaceList_cons]
    have hpre : ([a]).isPrefixOf (c :: cs) = (a == c) := by
      simp [List.isPrefixOf, nil_isPrefixOf]
    rw [hpre]
    cases hac : (a == c) with
    | true =>
      simp only [if_true]
      have hca : c = a := (eq_of_beq hac).symm
      subst hca
      show b :: replaceList [c] [b] cs = List.map (fun d => if d = c then b else d) (c :: cs)
      rw [ih]
      simp
    | false =>
      simp only [Bool.false_eq_true, if_false]
      have hca : ¬(c = a) := by
        intro hcc
        subst hcc
        simp at hac
      rw [ih]
      simp [hca]

lemma string_mk_ne_empty (l : List Char) (h : l ≠ []) : (⟨l⟩ : String) ≠ "" := by
  intro he
  apply h
  have hd : (⟨l⟩ : String).data = ("" : String).data := by rw [he]
  simpa using hd

lemma string_data_ne_nil (s : String) (h : s ≠ "") : s.data ≠ [] := by
  intro hd
  apply h
  cases s with
  | mk data =>
    simp only at hd
    subst hd
    rfl

lemma replaceList_ne_nil (pat rep s : List Char) (hr : rep ≠ []) (hs : s ≠ []) :
    replaceList pat rep s ≠ [] := by
  cases s with
  | nil => exact absurd rfl hs
  | cons c cs =>
    rw [replaceList_cons]
    cases hp : pat.isPrefixOf (c :: cs) with
    | true =>
      simp only [if_true]
      intro hcon
      exact hr (List.append_eq_nil.mp hcon).1
    | false => simp

/-- C6: when `init_repo` succeeds, an omitted `project_name` resolves to the
lowercased working-directory name, and an omitted `package_name` is the
resolved `project_name` with every `-` replaced by `_`. -/
theorem project_package_name_defaults (pn un ue : Option String) (cwdName : String)
    (g1 g2 : GitOutcome) (info : ProjectInfo)
    (h : buildProjectInfo pn none un ue cwdName g1 g2 = Except.ok info) :
    (pn = none → info.project_name = pyLower cwdName) ∧
      info.package_name.data =
        info.project_name.data.map (fun c => if c = '-' then '_' else c) := by
  cases g1 with
  | exitNonZero => simp [buildProjectInfo, param_from_git] at h
  | invokeFailure => simp [buildProjectInfo, param_from_git] at h
  | exitZero outN =>
    cases g2 with
    | exitNonZero => simp [buildProjectInfo, param_from_git] at h
    | invokeFailure => simp [buildProjectInfo, param_from_git] at h
    | exitZero outE =>
      simp only [buildProjectInfo, param_from_git, Except.ok.injEq] at h
      subst h
      refine ⟨fun hpn => ?_, ?_⟩
      · subst hpn; rfl
      · exact replaceList_single '-' '_' (if_none_else pn (pyLower cwdName)).data

/-- Witness for C6: the spec's end-to-end scenario 1, directory `My-Project`. -/
theorem project_package_name_defaults_witness :
    buildProjectInfo none none none none "My-Project"
        (.exitZero "Jane") (.exitZero "j@d.org") =
      Except.ok ⟨"my-project", "my_project", "Jane", "j@d.org"⟩ ∧
      ("my-project" : String) = pyLower "My-Project" ∧
      ("my_project" : String).data =
        ("my-project" : String).data.map (fun c => if c = '-' then '_' else c) := by
  refine ⟨by decide, ?_, ?_⟩
  · exact (project_package_name_defaults none none none "My-Project"
      (.exitZero "Jane") (.exitZero "j@d.org")
      ⟨"my-project", "my_project", "Jane", "j@d.org"⟩ (by decide)).1 rfl
  · exact (project_package_name_defaults none none none "My-Project"
      (.exitZero "Jane") (.exitZero "j@d.org")
      ⟨"my-project", "my_project", "Jane", "j@d.org"⟩ (by decide)).2

/-- C9 (amended): the built `ProjectInfo` always carries exactly the four
keys (it is a four-field record by construction), and all four values are
non-empty provided every explicitly given argument is non-empty, the
working-directory name is non-empty, and every successful identity lookup
yields non-blank output.  Without those provisos emptiness can leak in (see
the counterexample). -/
theorem buildProjectInfo_fields_nonempty (pn pkg un ue : Option String)
    (cwdName : String) (g1 g2 : GitOutcome) (info : ProjectInfo)
    (hpn : ∀ s, pn = some s → s ≠ "") (hpkg : ∀ s, pkg = some s → s ≠ "")
    (hun : ∀ s, un = some s → s ≠ "") (hue : ∀ s, ue = some s → s ≠ "")
    (hcwd : cwdName ≠ "")
    (hg1 : ∀ s, g1 = GitOutcome.exitZero s → pyStrip s ≠ "")
    (hg2 : ∀ s, g2 = GitOutcome.exitZero s → pyStrip s ≠ "")
    (h : buildProjectInfo pn pkg un ue cwdName g1 g2 = Except.ok info) :
    info.project_name ≠ "" ∧ info.package_name ≠ "" ∧
      info.user_name ≠ "" ∧ info.user_email ≠ "" := by
  cases g1 with
  | exitNonZero => simp [buildProjectInfo, param_from_git] at h
  | invokeFailure => simp [buildProjectInfo, param_from_git] at h
  | exitZero outN =>
    cases g2 with
    | exitNonZero => simp [buildProjectInfo, param_from_git] at h
    | invokeFailure => simp [buildProjectInfo, param_from_git] at h
    | exitZero outE =>
      simp only [buildProjectInfo, param_from_git, Except.ok.injEq] at h
      subst h
      have hpn' : (if_none_else pn (pyLower cwdName)) ≠ "" := by
        cases pn with
        | none =>
          exact string_mk_ne_empty _
            (fun hmap => string_data_ne_nil cwdName hcwd (by simpa using hmap))
        | some s => exact hpn s rfl
      refine ⟨hpn', ?_, ?_, ?_⟩
      · cases pkg with
        | some s => exact hpkg s rfl
        | none =>
          exact string_mk_ne_empty _
            (replaceList_ne_nil _ _ _ (by simp) (string_data_ne_nil _ hpn'))
      · cases un with
        | some s => exact hun s rfl
        | none => exact hg1 outN rfl
      · cases ue with
        | some s => exact hue s rfl
        | none => exact hg2 outE rfl

/-- Witness for the amended C9 at concrete non-empty inputs. -/
theorem buildProjectInfo_fields_nonempty_witness :
    buildProjectInfo none none none none "My-Project"
        (.exitZero "Jane\n") (.exitZero "j@d.org") =
      Except.ok ⟨"my-project", "my_project", "Jane", "j@d.org"⟩ ∧
      (("my-project" : String) ≠ "" ∧ ("my_project" : String) ≠ "" ∧
        ("Jane" : String) ≠ "" ∧ ("j@d.org" : String) ≠ "") := by
  refine ⟨by decide, ?_⟩
  exact buildProjectInfo_fields_nonempty none none none none "My-Project"
    (.exitZero "Jane\n") (.exitZero "j@d.org")
    ⟨"my-project", "my_project", "Jane", "j@d.org"⟩
    (fun s hs => Option.noConfusion hs) (fun s hs => Option.noConfusion hs)
    (fun s hs => Option.noConfusion hs) (fun s hs => Option.noConfusion hs)
    (by decide)
    (fun s hs => by injection hs with h'; subst h'; decide)
    (fun s hs => by injection hs with h'; subst h'; decide)
    (by decide)
